import Mathlib

/-!
Shallow embedding of the `lcache` package (gookit/ext): an in-process
key/value cache with per-entry TTL expiry, LRU eviction bounded by a
capacity, an eviction observer, and snapshot persistence through a
registry of named serializers.

Sources embedded: src/lcache/cache.go, src/lcache/serializer.go,
src/lcache/lcache.go.  Go maps are modelled as association lists with
distinct keys; the `container/list` recency list is modelled as a Lean
list of keys (front = most recently touched); the clock is an explicit
`now : Int` parameter (Unix milliseconds); file and decode outcomes are
explicit oracle parameters.  The eviction callback is modelled by the
list of (key, value) invocations an operation performs.
-/

namespace LCache

/-- A Go `any` value stored in the cache; `nil` is Go's nil. -/
inductive GoAny where
  | nil
  | intV (n : Int)
  | strV (s : String)
  deriving DecidableEq, Repr

/-- Item from cache.go: stored value plus absolute expiry in Unix
milliseconds, 0 meaning "never expires". -/
structure Item where
  val : GoAny
  exp : Int
  deriving DecidableEq, Repr

/-- Item.isExpired1 from cache.go:29-34: expired iff `Exp != 0` and
`nowUm > Exp`. -/
def Item.isExpired1 (i : Item) (nowUm : Int) : Bool :=
  if i.exp = 0 then false else decide (nowUm > i.exp)

/-- Association-list lookup, modelling Go map read `m[k]`. -/
def alookup {β : Type} : List (String × β) → String → Option β
  | [], _ => none
  | p :: t, k => if p.1 = k then some p.2 else alookup t k

/-- Association-list write, modelling Go map assignment `m[k] = v`
(replace if present, add if absent). -/
def aset {β : Type} : List (String × β) → String → β → List (String × β)
  | [], k, v => [(k, v)]
  | p :: t, k, v => if p.1 = k then (k, v) :: t else p :: aset t k v

/-- Association-list removal, modelling Go `delete(m, k)`. -/
def adel {β : Type} : List (String × β) → String → List (String × β)
  | [], _ => []
  | p :: t, k => if p.1 = k then t else p :: adel t k

/-- Build a Go map from successive assignments (models decoding a stream
of key/value pairs into a `map[string]Item`; later duplicates win). -/
def mapFromList {β : Type} (l : List (String × β)) : List (String × β) :=
  l.foldl (fun acc p => aset acc p.1 p.2) []

abbrev ItemMap := List (String × Item)

/-- The logical content of a snapshot file: the serialized key → (value,
expiry) mapping.  The byte-level layout is serializer-defined and lives
in Go's stdlib, outside this repository. -/
abbrev FileData := List (String × Item)

/-- Modelled from the spec: a serializer capability (serializer.go defines
the interface; the builtin implementations delegate to Go's stdlib
`encoding/json` / `encoding/gob`, which are not part of src).  The spec
fixes only the logical schema: encode/decode act on the key → (value,
expiry) map.  `decode_keys_distinct` records that a successful decode
into a Go `map[string]Item` cannot produce duplicate keys. -/
structure SerializerImpl where
  encode : ItemMap → FileData
  decode : FileData → Except String ItemMap
  decode_keys_distinct : ∀ fd m, decode fd = Except.ok m → (m.map Prod.fst).Nodup

abbrev Registry := List (String × SerializerImpl)

/-- Options from lcache.go:142-151. `onEvicted` records whether an
eviction observer is installed. -/
structure Options where
  capacity : Int
  serializerName : String
  onEvicted : Bool
  deriving DecidableEq, Repr

/-- Cache from cache.go:37-45: entry map, recency list (front = most
recently touched), and the key set of the node index `lruMap`. -/
structure Cache where
  opt : Options
  items : ItemMap
  lruList : List String
  lruMap : List String
  deriving DecidableEq, Repr

/-- Options defaults set by New (cache.go:48-61). -/
def defaultOptions : Options := { capacity := 1000, serializerName := "json", onEvicted := false }

/-- New from cache.go:48-61: empty storage with the given options. -/
def New (opts : Options) : Cache :=
  { opt := opts, items := [], lruList := [], lruMap := [] }

/-- Events: the (key, value) pairs passed to the eviction observer by an
operation, in call order. -/
abbrev Events := List (String × GoAny)

/-- removeElement from cache.go:248-263: drop the key's recency node if
indexed, then drop the stored entry, firing the observer if installed. -/
def Cache.removeElement (c : Cache) (key : String) : Cache × Bool × Events :=
  let step1 :=
    if key ∈ c.lruMap then
      ({ c with lruList := c.lruList.erase key, lruMap := c.lruMap.erase key }, true)
    else (c, false)
  match alookup step1.1.items key with
  | some it =>
      ({ step1.1 with items := adel step1.1.items key }, true,
        if c.opt.onEvicted then [(key, it.val)] else [])
  | none => (step1.1, step1.2, [])

/-- evict from cache.go:266-272: remove the back (least recently touched)
key of the recency list, if any. -/
def Cache.evict (c : Cache) : Cache × Events :=
  match c.lruList.getLast? with
  | some key => ((c.removeElement key).1, (c.removeElement key).2.2)
  | none => (c, [])

/-- Body of Set (cache.go:73-98) after the expiry stamp is computed. -/
def Cache.setWithExp (c : Cache) (key : String) (value : GoAny) (exp : Int) : Cache × Events :=
  if key ∈ c.lruMap then
    ({ c with lruList := key :: c.lruList.erase key,
              items := aset c.items key ⟨value, exp⟩ }, [])
  else
    let ev := if (c.lruList.length : Int) ≥ c.opt.capacity then c.evict else (c, [])
    ({ ev.1 with items := aset ev.1.items key ⟨value, exp⟩,
                 lruList := key :: ev.1.lruList,
                 lruMap := key :: ev.1.lruMap }, ev.2)

/-- Expiry stamp computed by Set/MSet: `now + ttl` if `ttl > 0`, else the
never-expires sentinel 0. -/
def expOf (ttl now : Int) : Int := if ttl > 0 then now + ttl else 0

/-- Set from cache.go:73-98. -/
def Cache.Set (c : Cache) (key : String) (value : GoAny) (ttl now : Int) : Cache × Events :=
  c.setWithExp key value (expOf ttl now)

/-- Get from cache.go:108-128: absent → (nil,false); expired → removed,
(nil,false); live → recency refreshed, (value,true). -/
def Cache.Get (c : Cache) (key : String) (now : Int) : (GoAny × Bool) × Cache × Events :=
  match alookup c.items key with
  | none => ((GoAny.nil, false), c, [])
  | some it =>
    if it.isExpired1 now then
      ((GoAny.nil, false), (c.removeElement key).1, (c.removeElement key).2.2)
    else
      ((it.val, true),
       (if key ∈ c.lruMap then { c with lruList := key :: c.lruList.erase key } else c),
       [])

/-- Val from cache.go:101-104: Get, discarding the found flag. -/
def Cache.Val (c : Cache) (key : String) (now : Int) : GoAny × Cache :=
  ((c.Get key now).1.1, (c.Get key now).2.1)

/-- Loop body of MGet (cache.go:131-153): one shared `now`, absent or
expired keys map to nil, live keys refresh recency. -/
def Cache.mgetAux (c : Cache) (ks : List String) (now : Int) (acc : List (String × GoAny)) :
    List (String × GoAny) × Cache :=
  match ks with
  | [] => (acc, c)
  | key :: rest =>
    match alookup c.items key with
    | none => c.mgetAux rest now (aset acc key GoAny.nil)
    | some it =>
      if it.isExpired1 now then c.mgetAux rest now (aset acc key GoAny.nil)
      else
        (if key ∈ c.lruMap then { c with lruList := key :: c.lruList.erase key } else c).mgetAux
          rest now (aset acc key it.val)

/-- MGet from cache.go:131-153. -/
def Cache.MGet (c : Cache) (ks : List String) (now : Int) : List (String × GoAny) × Cache :=
  c.mgetAux ks now []

/-- Loop body of MSet (cache.go:156-183): per-item Set with one shared
expiry stamp, accumulating observer calls. -/
def Cache.msetAux (c : Cache) (l : List (String × GoAny)) (exp : Int) : Cache × Events :=
  match l with
  | [] => (c, [])
  | (k, v) :: rest =>
    ((((c.setWithExp k v exp).1).msetAux rest exp).1,
     (c.setWithExp k v exp).2 ++ (((c.setWithExp k v exp).1).msetAux rest exp).2)

/-- MSet from cache.go:156-183. -/
def Cache.MSet (c : Cache) (l : List (String × GoAny)) (ttl now : Int) : Cache × Events :=
  c.msetAux l (expOf ttl now)

/-- Has from cache.go:186-190: physically stored, expiry NOT consulted. -/
def Cache.Has (c : Cache) (key : String) : Bool :=
  (alookup c.items key).isSome

/-- Keys from cache.go:196-211: keys of entries not expired at one
snapshot instant; does not mutate anything. -/
def Cache.Keys (c : Cache) (now : Int) : List String :=
  (c.items.filter (fun p => !p.2.isExpired1 now)).map Prod.fst

/-- Len from cache.go:217-221: raw stored-entry count, zombies included. -/
def Cache.Len (c : Cache) : Nat := c.items.length

/-- reset from cache.go:234-238. -/
def Cache.reset (c : Cache) : Cache :=
  { c with items := [], lruMap := [], lruList := [] }

/-- Clear from cache.go:227-231: bulk reset, fires no observer calls. -/
def Cache.Clear (c : Cache) : Cache := c.reset

/-- Delete from cache.go:241-245. -/
def Cache.Delete (c : Cache) (key : String) : Cache × Bool × Events :=
  c.removeElement key

/-- serializer from cache.go:275-280: registry lookup of the configured
name, error if unregistered. -/
def Cache.serializer (c : Cache) (reg : Registry) : Except String SerializerImpl :=
  match alookup reg c.opt.serializerName with
  | some s => Except.ok s
  | none => Except.error ("not registered serializer: " ++ c.opt.serializerName)

/-- Outcome of SaveFile: the returned error value, whether the target
file was opened for truncation (fsutil.OpenTruncFile creates/truncates
it), and the logical content streamed on success. -/
structure SaveResult where
  result : Except String Unit
  fileTruncated : Bool
  written : Option FileData

/-- SaveFile from cache.go:283-312, in source order: build the map of
entries live at one instant; if empty return nil touching no file;
otherwise open-truncate the target (oracle `openOk`), then resolve the
serializer, then stream (oracle `encodeOk` for write-surface errors). -/
def Cache.SaveFile (c : Cache) (reg : Registry) (openOk encodeOk : Bool) (now : Int) :
    SaveResult :=
  let data := c.items.filter (fun p => !p.2.isExpired1 now)
  if data.length = 0 then ⟨Except.ok (), false, none⟩
  else if !openOk then ⟨Except.error "open failed", false, none⟩
  else
    match alookup reg c.opt.serializerName with
    | none => ⟨Except.error ("not registered serializer: " ++ c.opt.serializerName), true, none⟩
    | some s =>
      if encodeOk then ⟨Except.ok (), true, some (s.encode data)⟩
      else ⟨Except.error "encode failed", true, none⟩

/-- Restore loop of LoadFile (cache.go:340-347): insert each decoded
entry that is not already expired at load time. -/
def loadInsert (c : Cache) (data : ItemMap) (now : Int) : Cache :=
  match data with
  | [] => c
  | (k, v) :: rest =>
    if !v.isExpired1 now then
      loadInsert { c with items := aset c.items k v,
                          lruList := k :: c.lruList,
                          lruMap := if k ∈ c.lruMap then c.lruMap else k :: c.lruMap } rest now
    else loadInsert c rest now

/-- LoadFile from cache.go:315-350, in source order: open the source
(oracle `openOk`), resolve the serializer, decode the whole file; only
then reset the cache and re-insert the decoded entries still live. -/
def Cache.LoadFile (c : Cache) (reg : Registry) (openOk : Bool) (fd : FileData) (now : Int) :
    Except String Unit × Cache :=
  if !openOk then (Except.error "open failed", c)
  else
    match alookup reg c.opt.serializerName with
    | none => (Except.error ("not registered serializer: " ++ c.opt.serializerName), c)
    | some s =>
      match s.decode fd with
      | Except.error e => (Except.error e, c)
      | Except.ok data => (Except.ok (), loadInsert c.reset data now)

/-- SetSerializer from serializer.go:28-32 (current file): a nil
implementation is ignored, the registry is returned unchanged. -/
def SetSerializer (reg : Registry) (name : String) (s : Option SerializerImpl) : Registry :=
  match s with
  | some impl => aset reg name impl
  | none => reg

/-- SetSerializer from lcache.go:106-112 (earlier in-tree version, doc
comment "if serializer is nil, delete it"): nil deletes the name. -/
def SetSerializerDel (reg : Registry) (name : String) (s : Option SerializerImpl) : Registry :=
  match s with
  | some impl => aset reg name impl
  | none => adel reg name

/-!  Association-list lemmas: the Go-map model. -/

theorem alookup_eq_none {β : Type} (m : List (String × β)) (k : String) :
    alookup m k = none ↔ k ∉ m.map Prod.fst := by
  induction m with
  | nil => simp [alookup]
  | cons p t ih =>
    by_cases h : p.1 = k
    · simp [alookup, h]
    · simp only [alookup, if_neg h, ih, List.map_cons, List.mem_cons]
      constructor
      · intro hn hc; rcases hc with hc | hc
        · exact h hc.symm
        · exact hn hc
      · intro hn hc; exact hn (Or.inr hc)

theorem alookup_isSome_iff {β : Type} (m : List (String × β)) (k : String) :
    (alookup m k).isSome = true ↔ k ∈ m.map Prod.fst := by
  rcases ho : alookup m k with _ | v
  · rw [alookup_eq_none] at ho; simp [ho]
  · have : ¬ alookup m k = none := by simp [ho]
    rw [alookup_eq_none] at this
    simpa using this

theorem mem_keys_aset {β : Type} (m : List (String × β)) (k a : String) (v : β) :
    a ∈ (aset m k v).map Prod.fst ↔ a = k ∨ a ∈ m.map Prod.fst := by
  induction m with
  | nil => simp [aset]
  | cons p t ih =>
    by_cases h : p.1 = k
    · subst h; simp [aset]
    · simp only [aset, if_neg h, List.map_cons, List.mem_cons, ih]
      tauto

theorem nodup_keys_aset {β : Type} {m : List (String × β)} {k : String} {v : β}
    (h : (m.map Prod.fst).Nodup) : ((aset m k v).map Prod.fst).Nodup := by
  induction m with
  | nil => simp [aset]
  | cons p t ih =>
    simp only [List.map_cons, List.nodup_cons] at h
    by_cases hpk : p.1 = k
    · subst hpk; simpa [aset] using h
    · simp only [aset, if_neg hpk, List.map_cons, List.nodup_cons]
      refine ⟨?_, ih h.2⟩
      rw [mem_keys_aset]
      rintro (hc | hc)
      · exact hpk hc
      · exact h.1 hc

theorem aset_of_not_mem {β : Type} {m : List (String × β)} {k : String}
    (h : k ∉ m.map Prod.fst) (v : β) : aset m k v = m ++ [(k, v)] := by
  induction m with
  | nil => rfl
  | cons p t ih =>
    simp only [List.map_cons, List.mem_cons] at h
    push_neg at h
    have : p.1 ≠ k := fun hc => h.1 hc.symm
    simp [aset, this, ih h.2]

theorem keys_aset_of_mem {β : Type} {m : List (String × β)} {k : String}
    (h : k ∈ m.map Prod.fst) (v : β) :
    (aset m k v).map Prod.fst = m.map Prod.fst := by
  induction m with
  | nil => simp at h
  | cons p t ih =>
    by_cases hpk : p.1 = k
    · simp [aset, hpk]
    · have hkt : k ∈ t.map Prod.fst := by
        simp only [List.map_cons, List.mem_cons] at h
        rcases h with h | h
        · exact absurd h.symm hpk
        · exact h
      simp [aset, hpk, ih hkt]

theorem alookup_aset_self {β : Type} (m : List (String × β)) (k : String) (v : β) :
    alookup (aset m k v) k = some v := by
  induction m with
  | nil => simp [aset, alookup]
  | cons p t ih =>
    by_cases h : p.1 = k
    · simp [aset, h, alookup]
    · simp [aset, h, alookup, ih]

theorem alookup_aset_ne {β : Type} (m : List (String × β)) {k a : String} (h : a ≠ k) (v : β) :
    alookup (aset m k v) a = alookup m a := by
  have h' : ¬ (k = a) := fun hc => h hc.symm
  induction m with
  | nil => simp [aset, alookup, h']
  | cons p t ih =>
    by_cases hpk : p.1 = k
    · subst hpk
      simp [aset, alookup, h']
    · by_cases hpa : p.1 = a
      · subst hpa
        simp [aset, hpk, alookup]
      · simp [aset, hpk, alookup, hpa, ih]

theorem keys_adel {β : Type} (m : List (String × β)) (k : String) :
    (adel m k).map Prod.fst = (m.map Prod.fst).erase k := by
  induction m with
  | nil => simp [adel]
  | cons p t ih =>
    by_cases h : p.1 = k
    · simp [adel, h, List.erase_cons]
    · simp [adel, h, List.erase_cons, ih]

theorem alookup_adel_ne {β : Type} (m : List (String × β)) {k a : String} (h : a ≠ k) :
    alookup (adel m k) a = alookup m a := by
  induction m with
  | nil => simp [adel]
  | cons p t ih =>
    by_cases hpk : p.1 = k
    · subst hpk
      have h' : ¬ (p.1 = a) := fun hc => h hc.symm
      simp [adel, alookup, h']
    · simp [adel, hpk, alookup, ih]

theorem alookup_adel_self {β : Type} {m : List (String × β)}
    (h : (m.map Prod.fst).Nodup) (k : String) : alookup (adel m k) k = none := by
  rw [alookup_eq_none, keys_adel]
  exact h.not_mem_erase

/-- Modelled from the spec: the builtin serializers delegate to Go's
stdlib `encoding/json` / `encoding/gob`, whose byte formats are outside
this repository; the spec requires only that the logical key → (value,
expiry) map round-trips through both.  We model encode as the identity
on the logical map and decode as rebuilding a Go map from the pairs. -/
def builtinSerializer : SerializerImpl where
  encode := id
  decode := fun fd => Except.ok (mapFromList fd)
  decode_keys_distinct := by
    intro fd m h
    cases h
    have key : ∀ (l : List (String × Item)) (acc : ItemMap),
        (acc.map Prod.fst).Nodup →
        ((l.foldl (fun acc p => aset acc p.1 p.2) acc).map Prod.fst).Nodup := by
      intro l
      induction l with
      | nil => intro acc h; simpa using h
      | cons p t ih =>
        intro acc h
        exact ih _ (nodup_keys_aset h)
    exact key fd [] (by simp)

/-- The package registry `serializers` from serializer.go:22-25. -/
def serializers : Registry := [("json", builtinSerializer), ("gob", builtinSerializer)]

/-!  Public operations as a step function, for stating state invariants
over the results of completed operations. -/

/-- One public operation together with the ambient inputs it reads (the
clock, the serializer registry, file and I/O oracles). -/
inductive Op where
  | new (opts : Options)
  | set (key : String) (value : GoAny) (ttl now : Int)
  | mset (l : List (String × GoAny)) (ttl now : Int)
  | get (key : String) (now : Int)
  | mget (ks : List String) (now : Int)
  | has (key : String)
  | keys (now : Int)
  | len
  | delete (key : String)
  | clear
  | save (reg : Registry) (openOk encodeOk : Bool) (now : Int)
  | load (reg : Registry) (openOk : Bool) (fd : FileData) (now : Int)

/-- The cache state after a completed public operation (cache.go; Has,
Keys, Len and SaveFile take no lock-protected writes and leave the state
unchanged). -/
def Op.apply (c : Cache) : Op → Cache
  | .new opts => New opts
  | .set k v ttl now => (c.Set k v ttl now).1
  | .mset l ttl now => (c.MSet l ttl now).1
  | .get k now => (c.Get k now).2.1
  | .mget ks now => (c.MGet ks now).2
  | .has _ => c
  | .keys _ => c
  | .len => c
  | .delete k => (c.Delete k).1
  | .clear => c.Clear
  | .save _ _ _ _ => c
  | .load reg openOk fd now => (c.LoadFile reg openOk fd now).2

/-- Structural well-formedness of a cache state: the entry map and the
node index have duplicate-free key sets, the recency list holds each key
exactly once, and all three carry exactly the same key set. -/
def WF (c : Cache) : Prop :=
  (c.items.map Prod.fst).Nodup ∧ c.lruMap.Nodup ∧ c.lruList.Nodup ∧
  (∀ k ∈ c.items.map Prod.fst, k ∈ c.lruMap) ∧
  (∀ k ∈ c.lruMap, k ∈ c.items.map Prod.fst) ∧
  (∀ k ∈ c.lruMap, k ∈ c.lruList) ∧
  (∀ k ∈ c.lruList, k ∈ c.lruMap)

instance (c : Cache) : Decidable (WF c) := by
  unfold WF; infer_instance

theorem WF_new (opts : Options) : WF (New opts) := by
  constructor <;> simp [New]

/-- removeElement keeps the structures aligned and only shrinks them. -/
theorem removeElement_facts {c : Cache} (h : WF c) (key : String) :
    WF (c.removeElement key).1 ∧
    (c.removeElement key).1.items.map Prod.fst ⊆ c.items.map Prod.fst ∧
    (c.removeElement key).1.lruMap ⊆ c.lruMap ∧
    (c.removeElement key).1.lruList ⊆ c.lruList ∧
    (c.removeElement key).1.opt = c.opt := by
  obtain ⟨h1, h2, h3, h4, h5, h6, h7⟩ := h
  by_cases hk : key ∈ c.lruMap
  · rcases ho : alookup c.items key with _ | it
    · exact absurd (h5 key hk) ((alookup_eq_none _ _).mp ho)
    · simp only [Cache.removeElement, if_pos hk, ho]
      refine ⟨⟨?_, h2.erase key, h3.erase key, ?_, ?_, ?_, ?_⟩, ?_, ?_, ?_, trivial⟩
      · rw [keys_adel]; exact h1.erase key
      · intro a ha
        rw [keys_adel, h1.mem_erase_iff] at ha
        rw [h2.mem_erase_iff]
        exact ⟨ha.1, h4 a ha.2⟩
      · intro a ha
        rw [h2.mem_erase_iff] at ha
        rw [keys_adel, h1.mem_erase_iff]
        exact ⟨ha.1, h5 a ha.2⟩
      · intro a ha
        rw [h2.mem_erase_iff] at ha
        rw [h3.mem_erase_iff]
        exact ⟨ha.1, h6 a ha.2⟩
      · intro a ha
        rw [h3.mem_erase_iff] at ha
        rw [h2.mem_erase_iff]
        exact ⟨ha.1, h7 a ha.2⟩
      · rw [keys_adel]; exact List.erase_subset _ _
      · exact List.erase_subset _ _
      · exact List.erase_subset _ _
  · rcases ho : alookup c.items key with _ | it
    · simp only [Cache.removeElement, if_neg hk, ho]
      exact ⟨⟨h1, h2, h3, h4, h5, h6, h7⟩, fun _ ha => ha, fun _ ha => ha, fun _ ha => ha, trivial⟩
    · have : key ∈ c.items.map Prod.fst := by
        by_contra hc
        rw [← alookup_eq_none] at hc
        rw [ho] at hc
        cases hc
      exact absurd (h4 key this) hk

theorem WF_removeElement {c : Cache} (h : WF c) (key : String) :
    WF (c.removeElement key).1 := (removeElement_facts h key).1

theorem evict_facts {c : Cache} (h : WF c) :
    WF c.evict.1 ∧
    c.evict.1.items.map Prod.fst ⊆ c.items.map Prod.fst ∧
    c.evict.1.lruMap ⊆ c.lruMap ∧
    c.evict.1.lruList ⊆ c.lruList ∧
    c.evict.1.opt = c.opt := by
  rcases hl : c.lruList.getLast? with _ | key
  · simp only [Cache.evict, hl]
    exact ⟨h, fun _ ha => ha, fun _ ha => ha, fun _ ha => ha, trivial⟩
  · simp only [Cache.evict, hl]
    exact removeElement_facts h key

theorem WF_setWithExp {c : Cache} (h : WF c) (key : String) (value : GoAny) (exp : Int) :
    WF (c.setWithExp key value exp).1 := by
  by_cases hk : key ∈ c.lruMap
  · obtain ⟨h1, h2, h3, h4, h5, h6, h7⟩ := h
    have hkeys : key ∈ c.items.map Prod.fst := h5 key hk
    simp only [Cache.setWithExp, if_pos hk]
    refine ⟨?_, h2, ?_, ?_, ?_, ?_, ?_⟩
    · rw [keys_aset_of_mem hkeys]; exact h1
    · exact (List.nodup_cons).mpr ⟨h3.not_mem_erase, h3.erase key⟩
    · intro a ha; rw [keys_aset_of_mem hkeys] at ha; exact h4 a ha
    · intro a ha; rw [keys_aset_of_mem hkeys]; exact h5 a ha
    · intro a ha
      by_cases hak : a = key
      · simp [hak]
      · exact List.mem_cons.mpr (Or.inr ((h3.mem_erase_iff).mpr ⟨hak, h6 a ha⟩))
    · intro a ha
      rcases List.mem_cons.mp ha with rfl | ha'
      · exact hk
      · exact h7 a (List.mem_of_mem_erase ha')
  · obtain ⟨hwf', hsubI, hsubM, hsubL, _⟩ :=
      evict_facts (c := c) ⟨h.1, h.2.1, h.2.2.1, h.2.2.2.1, h.2.2.2.2.1, h.2.2.2.2.2.1,
        h.2.2.2.2.2.2⟩
    simp only [Cache.setWithExp, if_neg hk]
    by_cases hcap : (c.lruList.length : Int) ≥ c.opt.capacity
    · simp only [if_pos hcap]
      obtain ⟨g1, g2, g3, g4, g5, g6, g7⟩ := hwf'
      have hkm : key ∉ c.evict.1.lruMap := fun hc => hk (hsubM hc)
      have hki : key ∉ c.evict.1.items.map Prod.fst := fun hc => hkm (g4 key hc)
      have hkl : key ∉ c.evict.1.lruList := fun hc => hkm (g7 key hc)
      rw [aset_of_not_mem hki]
      refine ⟨?_, ?_, ?_, ?_, ?_, ?_, ?_⟩
      · rw [List.map_append]
        refine List.Nodup.append g1 (by simp) ?_
        intro a ha hb
        simp only [List.map_cons, List.map_nil, List.mem_singleton] at hb
        exact hki (hb ▸ ha)
      · exact (List.nodup_cons).mpr ⟨hkm, g2⟩
      · exact (List.nodup_cons).mpr ⟨hkl, g3⟩
      · intro a ha
        simp only [List.map_append, List.mem_append, List.map_cons, List.mem_cons,
          List.map_nil, List.not_mem_nil, or_false] at ha
        rcases ha with ha | rfl
        · exact List.mem_cons.mpr (Or.inr (g4 a ha))
        · exact List.mem_cons.mpr (Or.inl rfl)
      · intro a ha
        simp only [List.map_append, List.mem_append, List.map_cons, List.mem_cons,
          List.map_nil, List.not_mem_nil, or_false]
        rcases List.mem_cons.mp ha with rfl | ha'
        · exact Or.inr rfl
        · exact Or.inl (g5 a ha')
      · intro a ha
        rcases List.mem_cons.mp ha with rfl | ha'
        · exact List.mem_cons.mpr (Or.inl rfl)
        · exact List.mem_cons.mpr (Or.inr (g6 a ha'))
      · intro a ha
        rcases List.mem_cons.mp ha with rfl | ha'
        · exact List.mem_cons.mpr (Or.inl rfl)
        · exact List.mem_cons.mpr (Or.inr (g7 a ha'))
    · simp only [if_neg hcap]
      obtain ⟨g1, g2, g3, g4, g5, g6, g7⟩ := h
      have hki : key ∉ c.items.map Prod.fst := fun hc => hk (g4 key hc)
      have hkl : key ∉ c.lruList := fun hc => hk (g7 key hc)
      rw [aset_of_not_mem hki]
      refine ⟨?_, ?_, ?_, ?_, ?_, ?_, ?_⟩
      · rw [List.map_append]
        refine List.Nodup.append g1 (by simp) ?_
        intro a ha hb
        simp only [List.map_cons, List.map_nil, List.mem_singleton] at hb
        exact hki (hb ▸ ha)
      · exact (List.nodup_cons).mpr ⟨hk, g2⟩
      · exact (List.nodup_cons).mpr ⟨hkl, g3⟩
      · intro a ha
        simp only [List.map_append, List.mem_append, List.map_cons, List.mem_cons,
          List.map_nil, List.not_mem_nil, or_false] at ha
        rcases ha with ha | rfl
        · exact List.mem_cons.mpr (Or.inr (g4 a ha))
        · exact List.mem_cons.mpr (Or.inl rfl)
      · intro a ha
        simp only [List.map_append, List.mem_append, List.map_cons, List.mem_cons,
          List.map_nil, List.not_mem_nil, or_false]
        rcases List.mem_cons.mp ha with rfl | ha'
        · exact Or.inr rfl
        · exact Or.inl (g5 a ha')
      · intro a ha
        rcases List.mem_cons.mp ha with rfl | ha'
        · exact List.mem_cons.mpr (Or.inl rfl)
        · exact List.mem_cons.mpr (Or.inr (g6 a ha'))
      · intro a ha
        rcases List.mem_cons.mp ha with rfl | ha'
        · exact List.mem_cons.mpr (Or.inl rfl)
        · exact List.mem_cons.mpr (Or.inr (g7 a ha'))

theorem WF_moveToFront {c : Cache} (h : WF c) {key : String} (hk : key ∈ c.lruMap) :
    WF { c with lruList := key :: c.lruList.erase key } := by
  obtain ⟨h1, h2, h3, h4, h5, h6, h7⟩ := h
  refine ⟨h1, h2, ?_, h4, h5, ?_, ?_⟩
  · exact (List.nodup_cons).mpr ⟨h3.not_mem_erase, h3.erase key⟩
  · intro a ha
    by_cases hak : a = key
    · simp [hak]
    · exact List.mem_cons.mpr (Or.inr ((h3.mem_erase_iff).mpr ⟨hak, h6 a ha⟩))
  · intro a ha
    rcases List.mem_cons.mp ha with rfl | ha'
    · exact hk
    · exact h7 a (List.mem_of_mem_erase ha')

theorem WF_Get {c : Cache} (h : WF c) (key : String) (now : Int) :
    WF (c.Get key now).2.1 := by
  unfold Cache.Get
  rcases ho : alookup c.items key with _ | it
  · simpa [ho] using h
  · by_cases he : it.isExpired1 now
    · simpa [ho, he] using WF_removeElement h key
    · by_cases hk : key ∈ c.lruMap
      · simpa [ho, he, hk] using WF_moveToFront h hk
      · simpa [ho, he, hk] using h

theorem mgetAux_facts (ks : List String) :
    ∀ (c : Cache) (now : Int) (acc : List (String × GoAny)),
      (c.mgetAux ks now acc).2.items = c.items ∧
      (c.mgetAux ks now acc).2.lruMap = c.lruMap ∧
      (c.mgetAux ks now acc).2.opt = c.opt ∧
      (WF c → WF (c.mgetAux ks now acc).2) := by
  induction ks with
  | nil => exact fun c now acc => ⟨rfl, rfl, rfl, fun h => h⟩
  | cons key rest ih =>
    intro c now acc
    rcases ho : alookup c.items key with _ | it
    · simpa [Cache.mgetAux, ho] using ih c now (aset acc key GoAny.nil)
    · by_cases he : it.isExpired1 now
      · simpa [Cache.mgetAux, ho, he] using ih c now (aset acc key GoAny.nil)
      · by_cases hk : key ∈ c.lruMap
        · have base := ih { c with lruList := key :: c.lruList.erase key } now (aset acc key it.val)
          refine ?_
          simp only [Cache.mgetAux, ho, he, hk, if_true, Bool.false_eq_true, if_false]
          exact ⟨base.1, base.2.1, base.2.2.1, fun hw => base.2.2.2 (WF_moveToFront hw hk)⟩
        · simpa [Cache.mgetAux, ho, he, hk] using ih c now (aset acc key it.val)

theorem WF_msetAux (l : List (String × GoAny)) :
    ∀ (c : Cache) (exp : Int), WF c → WF (c.msetAux l exp).1 := by
  induction l with
  | nil => exact fun c exp h => h
  | cons p rest ih =>
    obtain ⟨k, v⟩ := p
    intro c exp h
    simp only [Cache.msetAux]
    exact ih _ _ (WF_setWithExp h k v exp)

theorem WF_loadInsert (data : ItemMap) :
    ∀ (c : Cache) (now : Int), WF c → (data.map Prod.fst).Nodup →
      (∀ p ∈ data, p.1 ∉ c.lruList) → WF (loadInsert c data now) := by
  induction data with
  | nil => exact fun c now h _ _ => h
  | cons p rest ih =>
    obtain ⟨k, v⟩ := p
    intro c now h hnd hdisj
    simp only [List.map_cons, List.nodup_cons] at hnd
    by_cases he : v.isExpired1 now
    · simp only [loadInsert, he, Bool.not_true, Bool.false_eq_true, if_false]
      exact ih c now h hnd.2 (fun q hq => hdisj q (List.mem_cons_of_mem _ hq))
    · obtain ⟨h1, h2, h3, h4, h5, h6, h7⟩ := h
      have hkl : k ∉ c.lruList := hdisj (k, v) (List.mem_cons_self _ _)
      have hkm : k ∉ c.lruMap := fun hc => hkl (h6 k hc)
      have hki : k ∉ c.items.map Prod.fst := fun hc => hkm (h4 k hc)
      have hwf' : WF { c with items := aset c.items k v, lruList := k :: c.lruList,
                              lruMap := k :: c.lruMap } := by
        rw [show aset c.items k v = c.items ++ [(k, v)] from aset_of_not_mem hki v] at *
        refine ⟨?_, ?_, ?_, ?_, ?_, ?_, ?_⟩
        · rw [List.map_append]
          refine List.Nodup.append h1 (by simp) ?_
          intro a ha hb
          simp only [List.map_cons, List.map_nil, List.mem_singleton] at hb
          exact hki (hb ▸ ha)
        · exact (List.nodup_cons).mpr ⟨hkm, h2⟩
        · exact (List.nodup_cons).mpr ⟨hkl, h3⟩
        · intro a ha
          simp only [List.map_append, List.mem_append, List.map_cons, List.mem_cons,
            List.map_nil, List.not_mem_nil, or_false] at ha
          rcases ha with ha | rfl
          · exact List.mem_cons.mpr (Or.inr (h4 a ha))
          · exact List.mem_cons.mpr (Or.inl rfl)
        · intro a ha
          simp only [List.map_append, List.mem_append, List.map_cons, List.mem_cons,
            List.map_nil, List.not_mem_nil, or_false]
          rcases List.mem_cons.mp ha with rfl | ha'
          · exact Or.inr rfl
          · exact Or.inl (h5 a ha')
        · intro a ha
          rcases List.mem_cons.mp ha with rfl | ha'
          · exact List.mem_cons.mpr (Or.inl rfl)
          · exact List.mem_cons.mpr (Or.inr (h6 a ha'))
        · intro a ha
          rcases List.mem_cons.mp ha with rfl | ha'
          · exact List.mem_cons.mpr (Or.inl rfl)
          · exact List.mem_cons.mpr (Or.inr (h7 a ha'))
      simp only [loadInsert, he, Bool.not_false, if_true, if_neg hkm]
      refine ih _ now hwf' hnd.2 ?_
      intro q hq hmem
      rcases List.mem_cons.mp hmem with hq1 | hq2
      · exact hnd.1 (hq1 ▸ List.mem_map_of_mem Prod.fst hq)
      · exact hdisj q (List.mem_cons_of_mem _ hq) hq2

theorem WF_reset (c : Cache) : WF c.reset := by
  refine ⟨?_, ?_, ?_, ?_, ?_, ?_, ?_⟩ <;> simp [Cache.reset]

theorem WF_LoadFile {c : Cache} (h : WF c) (reg : Registry) (openOk : Bool)
    (fd : FileData) (now : Int) : WF (c.LoadFile reg openOk fd now).2 := by
  unfold Cache.LoadFile
  by_cases hop : openOk
  · rcases hs : alookup reg c.opt.serializerName with _ | s
    · simpa [hop, hs] using h
    · rcases hd : s.decode fd with e | data
      · simpa [hop, hs, hd] using h
      · simp only [hop, Bool.not_true, Bool.false_eq_true, if_false, hs, hd]
        refine WF_loadInsert data c.reset now (WF_reset c)
          (s.decode_keys_distinct fd data hd) ?_
        intro p hp
        simp [Cache.reset]
  · simp only [Bool.not_eq_true] at hop
    simpa [hop] using h

/-- After removeElement, the key no longer resolves in the entry map. -/
theorem removeElement_lookup_none {c : Cache} (hwf : WF c) (key : String) :
    alookup ((c.removeElement key).1).items key = none := by
  obtain ⟨h1, _, _, h4, h5, _, _⟩ := hwf
  by_cases hk : key ∈ c.lruMap
  · rcases ho : alookup c.items key with _ | it
    · simp [Cache.removeElement, hk, ho]
    · simp only [Cache.removeElement, if_pos hk, ho]
      exact alookup_adel_self h1 key
  · rcases ho : alookup c.items key with _ | it
    · simp [Cache.removeElement, hk, ho]
    · have hkm : key ∈ c.items.map Prod.fst := by
        rw [← alookup_isSome_iff, ho]
        rfl
      exact absurd (h4 key hkm) hk

/-- C2: after every completed public operation (New, Set, MSet, Get, MGet,
Has, Keys, Len, Delete, Clear, SaveFile, LoadFile), the key set of the
items map, the key set of the lruMap index, and the set of keys stored in
the lruList recency list are all equal, with each key appearing in the
list exactly once (the `WF` predicate), starting from any state that
already satisfies it. -/
theorem c2_key_set_bijection (c : Cache) (op : Op) (h : WF c) : WF (op.apply c) := by
  cases op with
  | new opts => exact WF_new opts
  | set k v ttl now => exact WF_setWithExp h k v (expOf ttl now)
  | mset l ttl now => exact WF_msetAux l c (expOf ttl now) h
  | get k now => exact WF_Get h k now
  | mget ks now => exact (mgetAux_facts ks c now []).2.2.2 h
  | has _ => exact h
  | keys _ => exact h
  | len => exact h
  | delete k => exact WF_removeElement h k
  | clear =>
    show WF c.Clear
    exact WF_reset c
  | save reg o e now => exact h
  | load reg o fd now => exact WF_LoadFile h reg o fd now

theorem c2_key_set_bijection_witness :
    WF (New defaultOptions) ∧
      WF (Op.apply (New defaultOptions) (Op.set "a" (GoAny.intV 1) 5 0)) :=
  ⟨by decide, c2_key_set_bijection (New defaultOptions) (Op.set "a" (GoAny.intV 1) 5 0)
    (by decide)⟩

/-- C3: if LoadFile fails for any reason — the source file cannot be
opened, the configured serializer name is not registered, or decoding
fails — it returns an error and the cache state is exactly what it was
before the call (decode success is the only path that clears and
repopulates). -/
theorem c3_loadfile_failure_atomic (c : Cache) (reg : Registry) (openOk : Bool)
    (fd : FileData) (now : Int)
    (h : openOk = false ∨ alookup reg c.opt.serializerName = none ∨
        ∀ s, alookup reg c.opt.serializerName = some s →
          ∃ e, s.decode fd = Except.error e) :
    (∃ e, (c.LoadFile reg openOk fd now).1 = Except.error e) ∧
      (c.LoadFile reg openOk fd now).2 = c := by
  cases openOk with
  | false => exact ⟨⟨"open failed", rfl⟩, rfl⟩
  | true =>
    rcases h with h | h | h
    · cases h
    · unfold Cache.LoadFile
      simp [h]
    · rcases hs : alookup reg c.opt.serializerName with _ | s
      · unfold Cache.LoadFile
        simp [hs]
      · obtain ⟨e, he⟩ := h s hs
        unfold Cache.LoadFile
        simp [hs, he]

theorem c3_loadfile_failure_atomic_witness :
    (∃ e, ((New defaultOptions).LoadFile serializers false [] 0).1 = Except.error e) ∧
      ((New defaultOptions).LoadFile serializers false [] 0).2 = New defaultOptions :=
  c3_loadfile_failure_atomic (New defaultOptions) serializers false [] 0 (Or.inl rfl)

/-- A reachable-looking state holding one entry that is expired at time
10 (set at time 0 with a 5ms TTL, clock now past it). -/
def zombieCache : Cache :=
  { opt := { capacity := 10, serializerName := "json", onEvicted := false },
    items := [("a", ⟨GoAny.intV 7, 5⟩)], lruList := ["a"], lruMap := ["a"] }

/-- C5 counterexample: at time 10 the stored entry "a" is expired and is
observed by Keys (it is filtered from the result) and by MGet (mapped to
nil), yet both operations leave it stored — contrary to the claim that
MGet/Keys/Save remove every expired entry they observe. -/
theorem c5_counterexample :
    Item.isExpired1 ⟨GoAny.intV 7, 5⟩ 10 = true ∧
    zombieCache.Keys 10 = [] ∧
    Op.apply zombieCache (Op.keys 10) = zombieCache ∧
    (zombieCache.MGet ["a"] 10).1 = [("a", GoAny.nil)] ∧
    (zombieCache.MGet ["a"] 10).2.items = zombieCache.items ∧
    zombieCache.Has "a" = true := by
  refine ⟨rfl, rfl, rfl, rfl, rfl, rfl⟩

/-- C5 amended: expired entries are removed from storage only by Get
(upon observing them); MGet, Keys and SaveFile skip expired entries in
their results without removing them from storage, and no operation
removes expired entries spontaneously. -/
theorem c5_only_get_reaps (c : Cache) (key : String) (ks : List String) (now : Int)
    (it : Item) (hwf : WF c) (hit : alookup c.items key = some it)
    (hexp : it.isExpired1 now = true) :
    alookup ((c.Get key now).2.1).items key = none ∧
    (c.MGet ks now).2.items = c.items ∧
    Op.apply c (Op.keys now) = c ∧
    (∀ reg o e, Op.apply c (Op.save reg o e now) = c) := by
  refine ⟨?_, (mgetAux_facts ks c now []).1, rfl, fun _ _ _ => rfl⟩
  unfold Cache.Get
  simp only [hit, hexp, if_true]
  exact removeElement_lookup_none hwf key

theorem c5_only_get_reaps_witness :
    alookup ((zombieCache.Get "a" 10).2.1).items "a" = none ∧
    (zombieCache.MGet ["a"] 10).2.items = zombieCache.items ∧
    Op.apply zombieCache (Op.keys 10) = zombieCache ∧
    (∀ reg o e, Op.apply zombieCache (Op.save reg o e 10) = zombieCache) :=
  c5_only_get_reaps zombieCache "a" ["a"] 10 ⟨GoAny.intV 7, 5⟩ (by decide) rfl rfl

/-- A cache holding one live entry but configured with a serializer name
that is not in the registry. -/
def badNameCache : Cache :=
  { opt := { capacity := 10, serializerName := "msgpack", onEvicted := false },
    items := [("a", ⟨GoAny.intV 7, 0⟩)], lruList := ["a"], lruMap := ["a"] }

/-- C6 counterexample: SaveFile on a cache with a live entry and an
unregistered serializer name returns the resolution error, but the
target file HAS been opened for truncation (created/truncated) before
serializer resolution — cache.go:300 runs fsutil.OpenTruncFile before
cache.go:306 resolves the serializer. -/
theorem c6_counterexample :
    (badNameCache.SaveFile serializers true true 0).result =
      Except.error "not registered serializer: msgpack" ∧
    (badNameCache.SaveFile serializers true true 0).fileTruncated = true := by
  exact ⟨rfl, rfl⟩

/-- C6 amended: SaveFile on a cache with at least one live entry and an
unregistered serializer name returns the resolution error, streams
nothing, and leaves the cache state unaffected — but the target file IS
created/truncated, because the file is opened for truncation before the
serializer is resolved. -/
theorem c6_save_resolution_error (c : Cache) (reg : Registry) (now : Int)
    (hne : (c.items.filter (fun p => !p.2.isExpired1 now)).length ≠ 0)
    (hmiss : alookup reg c.opt.serializerName = none) :
    (c.SaveFile reg true true now).result =
      Except.error ("not registered serializer: " ++ c.opt.serializerName) ∧
    (c.SaveFile reg true true now).written = none ∧
    (c.SaveFile reg true true now).fileTruncated = true ∧
    (∀ o e, Op.apply c (Op.save reg o e now) = c) := by
  unfold Cache.SaveFile
  refine ⟨?_, ?_, ?_, fun _ _ => rfl⟩ <;> simp [hne, hmiss]

theorem c6_save_resolution_error_witness :
    (badNameCache.SaveFile serializers true true 0).result =
      Except.error ("not registered serializer: " ++ "msgpack") ∧
    (badNameCache.SaveFile serializers true true 0).written = none ∧
    (badNameCache.SaveFile serializers true true 0).fileTruncated = true ∧
    (∀ o e, Op.apply badNameCache (Op.save serializers o e 0) = badNameCache) :=
  c6_save_resolution_error badNameCache serializers 0 (by decide) rfl

/-- C8 counterexample: in the zombie state, the full scan Keys at time
10 touches every key but removes nothing, so afterwards Len = 1 while
len(Keys) = 0 — the claimed equality after a full scan fails. -/
theorem c8_counterexample :
    Item.isExpired1 ⟨GoAny.intV 7, 5⟩ 10 = true ∧
    Op.apply zombieCache (Op.keys 10) = zombieCache ∧
    (Op.apply zombieCache (Op.keys 10)).Len = 1 ∧
    ((Op.apply zombieCache (Op.keys 10)).Keys 10).length = 0 := by
  exact ⟨rfl, rfl, rfl, rfl⟩

/-- C8 amended: in every state Len() ≥ len(Keys()); equality holds
whenever no stored entry is expired at the snapshot instant (scans do
not remove zombies, so a full scan does not by itself restore
equality). -/
theorem c8_len_ge_keys (c : Cache) (now : Int) :
    (c.Keys now).length ≤ c.Len ∧
    ((∀ p ∈ c.items, p.2.isExpired1 now = false) → (c.Keys now).length = c.Len) := by
  constructor
  · unfold Cache.Keys Cache.Len
    rw [List.length_map]
    exact List.length_filter_le _ _
  · intro hall
    unfold Cache.Keys Cache.Len
    rw [List.length_map, List.filter_eq_self.mpr]
    intro p hp
    simp [hall p hp]

/-- Registry after additionally registering the name "json2", as the test
TestOptions does. -/
def c9reg : Registry := aset serializers "json2" builtinSerializer

/-- An empty cache configured to persist with the name "json2". -/
def c9cache : Cache :=
  { opt := { capacity := 1000, serializerName := "json2", onEvicted := false },
    items := [], lruList := [], lruMap := [] }

/-- C9 evaluated at the failing input: SetSerializer (serializer.go:28-32)
with a nil implementation is a no-op — the registry still contains
"json2", and a subsequent LoadFile configured with that name SUCCEEDS
instead of failing with a resolution error.  This contradicts the claim,
the spec's deregistration rule, the repository's own test
(lcache_test.go:107-111 expects "json2" gone after SetSerializer("json2",
nil)), and the earlier in-tree variant (lcache.go:106-112, modelled here
as SetSerializerDel) whose doc comment says "if serializer is nil, delete
it" and which does deregister. -/
theorem c9_code_evaluation :
    SetSerializer c9reg "json2" none = c9reg ∧
    (alookup (SetSerializer c9reg "json2" none) "json2").isSome = true ∧
    (c9cache.LoadFile (SetSerializer c9reg "json2" none) true [] 0).1 = Except.ok () ∧
    alookup (SetSerializerDel c9reg "json2" none) "json2" = none := by
  exact ⟨rfl, rfl, rfl, rfl⟩

/-- A cache holding a live entry whose stored Go value is nil. -/
def nilValCache : Cache :=
  { opt := defaultOptions,
    items := [("a", ⟨GoAny.nil, 0⟩)], lruList := ["a"], lruMap := ["a"] }

/-- C10: for a live entry whose stored value is nil, MGet maps its key to
nil exactly as for a missing key, and Val returns nil as for a missing
key, while Get still returns (nil, true) for the live entry and
(nil, false) for the missing one. -/
theorem c10_nil_indistinguishable (c : Cache) (key miss : String) (now : Int) (it : Item)
    (hit : alookup c.items key = some it) (hlive : it.isExpired1 now = false)
    (hnil : it.val = GoAny.nil) (hmiss : alookup c.items miss = none) :
    (c.MGet [key] now).1 = [(key, GoAny.nil)] ∧
    (c.MGet [miss] now).1 = [(miss, GoAny.nil)] ∧
    (c.Val key now).1 = GoAny.nil ∧
    (c.Val miss now).1 = GoAny.nil ∧
    (c.Get key now).1 = (GoAny.nil, true) ∧
    (c.Get miss now).1 = (GoAny.nil, false) := by
  refine ⟨?_, ?_, ?_, ?_, ?_, ?_⟩ <;>
    simp [Cache.MGet, Cache.mgetAux, Cache.Val, Cache.Get, hit, hlive, hnil, hmiss, aset]

/-- Folding Set over a list of (key, value) pairs in order with one ttl
and one clock instant, accumulating the observer calls — the insertion
sequence of the capacity test. -/
def setSeq : Cache → List (String × GoAny) → Int → Int → Cache × Events
  | c, [], _, _ => (c, [])
  | c, (k, v) :: rest, ttl, now =>
    ((setSeq (c.Set k v ttl now).1 rest ttl now).1,
     (c.Set k v ttl now).2 ++ (setSeq (c.Set k v ttl now).1 rest ttl now).2)

/-- The cache state reached by inserting fresh distinct keys in order
without ever hitting capacity: entries in insertion order, recency list
with the newest key in front. -/
def stateOf (opts : Options) (ps : List (String × GoAny)) (e : Int) : Cache :=
  { opt := opts,
    items := ps.map (fun p => (p.1, (⟨p.2, e⟩ : Item))),
    lruList := (ps.map Prod.fst).reverse,
    lruMap := (ps.map Prod.fst).reverse }

theorem keys_stateOf (ps : List (String × GoAny)) (e : Int) :
    (ps.map (fun p => (p.1, (⟨p.2, e⟩ : Item)))).map Prod.fst = ps.map Prod.fst := by
  rw [List.map_map]
  rfl

theorem expOf_not_expired {ttl now tk : Int} (h : 0 < ttl → tk ≤ now + ttl) (v : GoAny) :
    Item.isExpired1 ⟨v, expOf ttl now⟩ tk = false := by
  unfold Item.isExpired1 expOf
  by_cases hp : ttl > 0
  · rw [if_pos hp]
    by_cases hz : now + ttl = 0
    · simp [hz]
    · simp only [hz, if_false, decide_eq_false_iff_not, not_lt]
      exact h hp
  · rw [if_neg hp]
    simp

theorem setSeq_append (l1 l2 : List (String × GoAny)) :
    ∀ (c : Cache) (ttl now : Int),
      setSeq c (l1 ++ l2) ttl now =
        ((setSeq (setSeq c l1 ttl now).1 l2 ttl now).1,
         (setSeq c l1 ttl now).2 ++ (setSeq (setSeq c l1 ttl now).1 l2 ttl now).2) := by
  induction l1 with
  | nil => intro c ttl now; simp [setSeq]
  | cons p t ih =>
    obtain ⟨k, v⟩ := p
    intro c ttl now
    simp only [List.cons_append, setSeq, List.append_eq, ih, List.append_assoc]

/-- Inserting fresh distinct keys while below capacity evicts nothing and
builds `stateOf` of the inserted pairs. -/
theorem setSeq_fresh (ks : List (String × GoAny)) :
    ∀ (pre : List (String × GoAny)) (opts : Options) (ttl now : Int),
      ((pre ++ ks).map Prod.fst).Nodup →
      ((pre.length : Int) + ks.length ≤ opts.capacity) →
      setSeq (stateOf opts pre (expOf ttl now)) ks ttl now =
        (stateOf opts (pre ++ ks) (expOf ttl now), []) := by
  induction ks with
  | nil => intro pre opts ttl now _ _; simp [setSeq]
  | cons p rest ih =>
    obtain ⟨k, v⟩ := p
    intro pre opts ttl now hnd hcap
    have hnd' := hnd
    rw [List.map_append, List.nodup_append] at hnd'
    obtain ⟨hnp, hnkr, hdisj⟩ := hnd'
    simp only [List.map_cons] at hnkr hdisj
    have hkpre : k ∉ pre.map Prod.fst := fun hc => hdisj hc (List.mem_cons_self _ _)
    have hset : (stateOf opts pre (expOf ttl now)).Set k v ttl now =
        (stateOf opts (pre ++ [(k, v)]) (expOf ttl now), []) := by
      unfold Cache.Set Cache.setWithExp
      have hm : k ∉ (stateOf opts pre (expOf ttl now)).lruMap := by
        simp only [stateOf, List.mem_reverse]
        exact hkpre
      have hcap' : ¬ (((stateOf opts pre (expOf ttl now)).lruList.length : Int) ≥
          (stateOf opts pre (expOf ttl now)).opt.capacity) := by
        have hlen2 : (stateOf opts pre (expOf ttl now)).lruList.length = pre.length := by
          simp [stateOf]
        have hlen3 : ((k, v) :: rest).length = rest.length + 1 := by simp
        rw [hlen3] at hcap
        rw [hlen2]
        show ¬ ((pre.length : Int) ≥ opts.capacity)
        push_cast at hcap
        omega
      rw [if_neg hm, if_neg hcap']
      have hitems : aset (stateOf opts pre (expOf ttl now)).items k
          ⟨v, expOf ttl now⟩ =
          (pre ++ [(k, v)]).map (fun p => (p.1, (⟨p.2, expOf ttl now⟩ : Item))) := by
        have : k ∉ ((stateOf opts pre (expOf ttl now)).items.map Prod.fst) := by
          simp only [stateOf, keys_stateOf]
          exact hkpre
        rw [aset_of_not_mem this]
        simp [stateOf]
      refine Prod.ext ?_ rfl
      show ({ (stateOf opts pre (expOf ttl now)) with
        items := aset _ k ⟨v, expOf ttl now⟩,
        lruList := k :: (stateOf opts pre (expOf ttl now)).lruList,
        lruMap := k :: (stateOf opts pre (expOf ttl now)).lruMap } : Cache) =
        stateOf opts (pre ++ [(k, v)]) (expOf ttl now)
      rw [hitems]
      simp [stateOf, List.reverse_append]
    have hndrec : (((pre ++ [(k, v)]) ++ rest).map Prod.fst).Nodup := by
      rw [List.append_assoc]
      simpa using hnd
    have hcaprec : (((pre ++ [(k, v)]).length : Int) + rest.length ≤ opts.capacity) := by
      simp only [List.length_append, List.length_singleton, List.length_cons,
        List.length_nil] at hcap ⊢
      push_cast at hcap ⊢
      omega
    show ((setSeq ((stateOf opts pre (expOf ttl now)).Set k v ttl now).1 rest ttl now).1,
      ((stateOf opts pre (expOf ttl now)).Set k v ttl now).2 ++
        (setSeq ((stateOf opts pre (expOf ttl now)).Set k v ttl now).1 rest ttl now).2) = _
    rw [hset]
    simp only [ih (pre ++ [(k, v)]) opts ttl now hndrec hcaprec]
    simp [List.append_assoc]

/-- C1: starting from an empty cache with capacity C ≥ 1 and an eviction
observer installed, inserting C+1 distinct new keys k1..k(C+1) in order
via Set (no intervening Get, no expirations) evicts exactly the first
key: the observer fires exactly once, with (k1, v1), and Keys returns
exactly the set {k2, ..., k(C+1)}. -/
theorem c1_capacity_eviction (C : Nat) (hC : 1 ≤ C)
    (ks : List (String × GoAny)) (hlen : ks.length = C + 1)
    (hnd : (ks.map Prod.fst).Nodup)
    (k1 : String) (v1 : GoAny) (rest : List (String × GoAny))
    (hks : ks = (k1, v1) :: rest)
    (name : String) (ttl now tk : Int) (hlive : 0 < ttl → tk ≤ now + ttl) :
    (setSeq (New ⟨(C : Int), name, true⟩) ks ttl now).2 = [(k1, v1)] ∧
    (∀ k, k ∈ ((setSeq (New ⟨(C : Int), name, true⟩) ks ttl now).1.Keys tk) ↔
      k ∈ (ks.map Prod.fst).tail) := by
  subst hks
  rcases List.eq_nil_or_concat rest with rfl | ⟨q, lastp, rfl⟩
  · simp at hlen
    omega
  obtain ⟨kl, vl⟩ := lastp
  simp only [List.concat_eq_append] at hlen hnd ⊢
  set opts : Options := ⟨(C : Int), name, true⟩ with hopts
  set e : Int := expOf ttl now with he
  have hlq : q.length + 1 = C := by
    simp only [List.length_cons, List.length_append, List.length_singleton,
      List.length_nil] at hlen
    omega
  -- key-set shape of the full insertion list
  have hkeys : (((k1, v1) :: (q ++ [(kl, vl)])).map Prod.fst) =
      k1 :: (q.map Prod.fst ++ [kl]) := by
    simp
  rw [hkeys] at hnd
  have hnd1 : k1 ∉ q.map Prod.fst ++ [kl] := (List.nodup_cons.mp hnd).1
  have hnd2 : (q.map Prod.fst ++ [kl]).Nodup := (List.nodup_cons.mp hnd).2
  have hk1q : k1 ∉ q.map Prod.fst := fun hc => hnd1 (List.mem_append_left _ hc)
  have hk1kl : k1 ≠ kl := by
    intro hc
    exact hnd1 (List.mem_append_right _ (by simp [hc]))
  have hklq : kl ∉ q.map Prod.fst := by
    intro hc
    exact (List.disjoint_of_nodup_append hnd2) hc (by simp)
  -- split the sequence: first the C fresh inserts, then the overflowing one
  have hdec : ((k1, v1) :: (q ++ [(kl, vl)])) = (((k1, v1) :: q) ++ [(kl, vl)]) := rfl
  rw [hdec, setSeq_append]
  have hNew : New opts = stateOf opts [] e := rfl
  have hndinit : (([] ++ ((k1, v1) :: q)).map Prod.fst).Nodup := by
    simp only [List.nil_append, List.map_cons, List.nodup_cons]
    refine ⟨hk1q, ?_⟩
    exact (List.nodup_append.mp hnd2).1
  have hcapinit : ((([] : List (String × GoAny)).length : Int) +
      ((k1, v1) :: q).length ≤ opts.capacity) := by
    simp only [List.length_nil, List.length_cons]
    show (0 : Int) + ((q.length + 1 : Nat) : Int) ≤ (C : Int)
    push_cast
    omega
  rw [hNew, setSeq_fresh ((k1, v1) :: q) [] opts ttl now hndinit hcapinit]
  simp only [List.nil_append]
  -- the overflowing Set: fresh key at capacity — evict fires on k1
  have hk1m : k1 ∈ (stateOf opts ((k1, v1) :: q) e).lruMap := by
    show k1 ∈ (((k1, v1) :: q).map Prod.fst).reverse
    simp
  have hk1notrev : k1 ∉ (q.map Prod.fst).reverse := by
    simpa using hk1q
  have herase : ((((k1, v1) :: q).map Prod.fst).reverse).erase k1 =
      (q.map Prod.fst).reverse := by
    rw [List.map_cons, List.reverse_cons, List.erase_append_right _ hk1notrev]
    simp
  have halookup : alookup (stateOf opts ((k1, v1) :: q) e).items k1 =
      some ⟨v1, e⟩ := by
    show alookup (((k1, v1) :: q).map (fun p => (p.1, (⟨p.2, e⟩ : Item)))) k1 = _
    simp [alookup]
  have hadel : adel (stateOf opts ((k1, v1) :: q) e).items k1 =
      q.map (fun p => (p.1, (⟨p.2, e⟩ : Item))) := by
    show adel (((k1, v1) :: q).map (fun p => (p.1, (⟨p.2, e⟩ : Item)))) k1 = _
    simp [adel]
  have hrem : (stateOf opts ((k1, v1) :: q) e).removeElement k1 =
      (stateOf opts q e, true, [(k1, v1)]) := by
    simp only [Cache.removeElement, if_pos hk1m, halookup, hadel]
    refine Prod.ext ?_ (Prod.ext rfl ?_)
    · show ({ stateOf opts ((k1, v1) :: q) e with
        lruList := ((((k1, v1) :: q).map Prod.fst).reverse).erase k1,
        lruMap := ((((k1, v1) :: q).map Prod.fst).reverse).erase k1,
        items := q.map (fun p => (p.1, (⟨p.2, e⟩ : Item))) } : Cache) = stateOf opts q e
      rw [herase]
      rfl
    · rfl
  have hlast : (stateOf opts ((k1, v1) :: q) e).lruList.getLast? = some k1 := by
    show (((k1, v1) :: q).map Prod.fst).reverse.getLast? = some k1
    rw [List.map_cons, List.reverse_cons]
    exact List.getLast?_concat _
  have hevict : (stateOf opts ((k1, v1) :: q) e).evict = (stateOf opts q e, [(k1, v1)]) := by
    unfold Cache.evict
    rw [hlast]
    show ((((stateOf opts ((k1, v1) :: q) e).removeElement k1).1,
      ((stateOf opts ((k1, v1) :: q) e).removeElement k1).2.2) : Cache × Events) = _
    rw [hrem]
  have hklm : kl ∉ (stateOf opts ((k1, v1) :: q) e).lruMap := by
    show kl ∉ (((k1, v1) :: q).map Prod.fst).reverse
    simp only [List.map_cons, List.reverse_cons, List.mem_append, List.mem_reverse,
      List.mem_singleton]
    rintro (hc | hc)
    · exact hklq hc
    · exact hk1kl hc.symm
  have hcapge : (((stateOf opts ((k1, v1) :: q) e).lruList.length : Int) ≥
      (stateOf opts ((k1, v1) :: q) e).opt.capacity) := by
    have hl2 : (stateOf opts ((k1, v1) :: q) e).lruList.length = q.length + 1 := by
      simp [stateOf]
    rw [hl2]
    show ((q.length + 1 : Nat) : Int) ≥ (C : Int)
    rw [hlq]
  have hklitems : kl ∉ ((stateOf opts q e).items.map Prod.fst) := by
    show kl ∉ ((q.map (fun p => (p.1, (⟨p.2, e⟩ : Item)))).map Prod.fst)
    rw [keys_stateOf]
    exact hklq
  have hsetlast : (stateOf opts ((k1, v1) :: q) e).Set kl vl ttl now =
      ({ opt := opts,
         items := (q ++ [(kl, vl)]).map (fun p => (p.1, (⟨p.2, e⟩ : Item))),
         lruList := kl :: (q.map Prod.fst).reverse,
         lruMap := kl :: (q.map Prod.fst).reverse }, [(k1, v1)]) := by
    unfold Cache.Set Cache.setWithExp
    rw [if_neg hklm]
    simp only [if_pos hcapge, hevict]
    rw [aset_of_not_mem hklitems]
    refine Prod.ext ?_ rfl
    show ({ stateOf opts q e with
      items := (stateOf opts q e).items ++ [(kl, ⟨vl, e⟩)],
      lruList := kl :: (stateOf opts q e).lruList,
      lruMap := kl :: (stateOf opts q e).lruMap } : Cache) = _
    simp [stateOf]
  constructor
  · show ([] : Events) ++ ((stateOf opts ((k1, v1) :: q) e).Set kl vl ttl now).2 ++
      (setSeq ((stateOf opts ((k1, v1) :: q) e).Set kl vl ttl now).1 [] ttl now).2 = _
    rw [hsetlast]
    rfl
  · intro k
    show k ∈ ((setSeq ((stateOf opts ((k1, v1) :: q) e).Set kl vl ttl now).1 [] ttl now).1.Keys
      tk) ↔ _
    rw [hsetlast]
    show k ∈ (Cache.Keys _ tk) ↔ _
    unfold Cache.Keys
    have hfilter : (((q ++ [(kl, vl)]).map (fun p => (p.1, (⟨p.2, e⟩ : Item)))).filter
        (fun p => !p.2.isExpired1 tk)) =
        ((q ++ [(kl, vl)]).map (fun p => (p.1, (⟨p.2, e⟩ : Item)))) := by
      rw [List.filter_eq_self]
      intro p hp
      obtain ⟨a, _, rfl⟩ := List.mem_map.mp hp
      rw [he] at *
      simp [expOf_not_expired hlive]
    show k ∈ ((((q ++ [(kl, vl)]).map (fun p => (p.1, (⟨p.2, e⟩ : Item)))).filter
        (fun p => !p.2.isExpired1 tk)).map Prod.fst) ↔ _
    rw [hfilter, keys_stateOf]
    simp

theorem c1_capacity_eviction_witness :
    (setSeq (New ⟨((2 : Nat) : Int), "json", true⟩)
      [("a", GoAny.intV 1), ("b", GoAny.intV 2), ("c", GoAny.intV 3)] 5 0).2 =
      [("a", GoAny.intV 1)] ∧
    (∀ k, k ∈ ((setSeq (New ⟨((2 : Nat) : Int), "json", true⟩)
      [("a", GoAny.intV 1), ("b", GoAny.intV 2), ("c", GoAny.intV 3)] 5 0).1.Keys 0) ↔
      k ∈ (([("a", GoAny.intV 1), ("b", GoAny.intV 2), ("c", GoAny.intV 3)].map
        Prod.fst).tail)) :=
  c1_capacity_eviction 2 (by decide)
    [("a", GoAny.intV 1), ("b", GoAny.intV 2), ("c", GoAny.intV 3)] rfl (by decide)
    "a" (GoAny.intV 1) [("b", GoAny.intV 2), ("c", GoAny.intV 3)] rfl "json" 5 0 0
    (by decide)

theorem alookup_mem {β : Type} {m : List (String × β)} {k : String} {v : β}
    (h : alookup m k = some v) : (k, v) ∈ m := by
  induction m with
  | nil => cases h
  | cons p t ih =>
    by_cases hpk : p.1 = k
    · rw [show alookup (p :: t) k = some p.2 by simp [alookup, hpk]] at h
      cases h
      rw [← hpk]
      exact List.mem_cons_self _ _
    · rw [show alookup (p :: t) k = alookup t k by simp [alookup, hpk]] at h
      exact List.mem_cons_of_mem _ (ih h)

theorem mapFromList_foldl (l : ItemMap) :
    ∀ (acc : ItemMap), (∀ p ∈ l, p.1 ∉ acc.map Prod.fst) → ((l.map Prod.fst).Nodup) →
      l.foldl (fun acc p => aset acc p.1 p.2) acc = acc ++ l := by
  induction l with
  | nil => intro acc _ _; simp
  | cons p t ih =>
    obtain ⟨k, v⟩ := p
    intro acc hfresh hnd
    simp only [List.map_cons, List.nodup_cons] at hnd
    have hk : k ∉ acc.map Prod.fst := hfresh (k, v) (List.mem_cons_self _ _)
    simp only [List.foldl_cons]
    rw [aset_of_not_mem hk]
    rw [ih (acc ++ [(k, v)]) ?fresh hnd.2]
    · simp
    · intro p hp
      rw [List.map_append, List.mem_append]
      rintro (hc | hc)
      · exact hfresh p (List.mem_cons_of_mem _ hp) hc
      · simp only [List.map_cons, List.map_nil, List.mem_singleton] at hc
        exact hnd.1 (hc ▸ List.mem_map_of_mem Prod.fst hp)

/-- Decoding a snapshot whose keys are distinct rebuilds exactly that
mapping. -/
theorem mapFromList_of_nodup {l : ItemMap} (h : (l.map Prod.fst).Nodup) :
    mapFromList l = l := by
  unfold mapFromList
  simpa using mapFromList_foldl l [] (by simp) h

theorem loadInsert_lookup_of_ne (data : ItemMap) :
    ∀ (c : Cache) (now : Int) (k : String), (∀ p ∈ data, p.1 ≠ k) →
      alookup (loadInsert c data now).items k = alookup c.items k := by
  induction data with
  | nil => intro c now k _; rfl
  | cons p t ih =>
    obtain ⟨k0, v0⟩ := p
    intro c now k hne
    have hk0 : k0 ≠ k := hne (k0, v0) (List.mem_cons_self _ _)
    by_cases he : v0.isExpired1 now
    · simp only [loadInsert, he, Bool.not_true, Bool.false_eq_true, if_false]
      exact ih c now k (fun p hp => hne p (List.mem_cons_of_mem _ hp))
    · simp only [loadInsert, he, Bool.not_false, if_true]
      rw [ih _ now k (fun p hp => hne p (List.mem_cons_of_mem _ hp))]
      exact alookup_aset_ne _ (fun hc => hk0 hc.symm) _

/-- Every decoded entry still live at load time is restored with its
original key, value and expiry. -/
theorem loadInsert_lookup_mem (data : ItemMap) :
    ∀ (c : Cache) (now : Int) (k : String) (it : Item),
      (data.map Prod.fst).Nodup → (k, it) ∈ data → it.isExpired1 now = false →
      alookup (loadInsert c data now).items k = some it := by
  induction data with
  | nil => intro c now k it _ hmem _; cases hmem
  | cons p t ih =>
    obtain ⟨k0, v0⟩ := p
    intro c now k it hnd hmem hlive
    simp only [List.map_cons, List.nodup_cons] at hnd
    rcases List.mem_cons.mp hmem with heq | hmem'
    · injection heq with h1 h2
      subst h1
      subst h2
      simp only [loadInsert, hlive, Bool.not_false, if_true]
      rw [loadInsert_lookup_of_ne t _ now k ?fresh]
      · exact alookup_aset_self _ _ _
      · intro p hp hc
        exact hnd.1 (hc ▸ List.mem_map_of_mem Prod.fst hp)
    · have hkne : k ≠ k0 := by
        intro hc
        exact hnd.1 (hc ▸ List.mem_map_of_mem Prod.fst hmem')
      by_cases he : v0.isExpired1 now
      · simp only [loadInsert, he, Bool.not_true, Bool.false_eq_true, if_false]
        exact ih c now k it hnd.2 hmem' hlive
      · simp only [loadInsert, he, Bool.not_false, if_true]
        exact ih _ now k it hnd.2 hmem' hlive

/-- The claim's round-trip scenario with the given builtin serializer:
set(a,1,10s); set(b,2,10s); save(f); clear(); load(f); then get(a),
get(b), all at clock 0 (milliseconds). -/
def c4Scenario (sname : String) : (GoAny × Bool) × (GoAny × Bool) :=
  let c0 := New { capacity := 50, serializerName := sname, onEvicted := false }
  let c1 := (c0.Set "a" (GoAny.intV 1) 10000 0).1
  let c2 := (c1.Set "b" (GoAny.intV 2) 10000 0).1
  let sv := c2.SaveFile serializers true true 0
  let c3 := c2.Clear
  let ld := c3.LoadFile serializers true (sv.written.getD []) 0
  let g1 := ld.2.Get "a" 0
  let g2 := g1.2.1.Get "b" 0
  (g1.1, g2.1)

/-- C4: for a cache using a builtin serializer ("json" or "gob"), every
entry live at save time is restored by a load of the written snapshot
with its original key, value and expiry, and a Get then finds it; in
particular the scenario set(a,1,10s); set(b,2,10s); save; clear; load
yields get(a) = (1, true) and get(b) = (2, true) through both builtin
serializers. -/
theorem c4_save_load_roundtrip (c : Cache) (t : Int) (k : String) (it : Item)
    (hwf : WF c)
    (hname : c.opt.serializerName = "json" ∨ c.opt.serializerName = "gob")
    (hk : alookup c.items k = some it) (hlive : it.isExpired1 t = false) :
    (alookup (((c.Clear).LoadFile serializers true
        ((c.SaveFile serializers true true t).written.getD []) t).2).items k = some it ∧
      (((c.Clear).LoadFile serializers true
        ((c.SaveFile serializers true true t).written.getD []) t).2.Get k t).1 =
        (it.val, true)) ∧
    c4Scenario "json" = ((GoAny.intV 1, true), (GoAny.intV 2, true)) ∧
    c4Scenario "gob" = ((GoAny.intV 1, true), (GoAny.intV 2, true)) := by
  have hs : alookup serializers c.opt.serializerName = some builtinSerializer := by
    rcases hname with h | h <;> rw [h] <;> rfl
  have hmemdata : (k, it) ∈ c.items.filter (fun p => !p.2.isExpired1 t) :=
    List.mem_filter.mpr ⟨alookup_mem hk, by simp [hlive]⟩
  have hdnd : ((c.items.filter (fun p => !p.2.isExpired1 t)).map Prod.fst).Nodup :=
    hwf.1.sublist (List.Sublist.map _ (List.filter_sublist _))
  have hlen : (c.items.filter (fun p => !p.2.isExpired1 t)).length ≠ 0 := by
    have := List.length_pos.mpr (List.ne_nil_of_mem hmemdata)
    omega
  have hwritten : (c.SaveFile serializers true true t).written =
      some (c.items.filter (fun p => !p.2.isExpired1 t)) := by
    unfold Cache.SaveFile
    simp [hlen, hs]
    rfl
  have hcname : (c.Clear).opt.serializerName = c.opt.serializerName := rfl
  have hload : ((c.Clear).LoadFile serializers true
      ((c.SaveFile serializers true true t).written.getD []) t).2 =
      loadInsert ((c.Clear).reset) (c.items.filter (fun p => !p.2.isExpired1 t)) t := by
    rw [hwritten]
    unfold Cache.LoadFile
    rw [show alookup serializers (c.Clear).opt.serializerName = some builtinSerializer
      from hcname ▸ hs]
    show (match builtinSerializer.decode _ with
      | Except.error e => (Except.error e, c.Clear)
      | Except.ok data => (Except.ok (), loadInsert (c.Clear).reset data t)).2 = _
    rw [show builtinSerializer.decode
        ((some (c.items.filter (fun p => !p.2.isExpired1 t))).getD []) =
        Except.ok (c.items.filter (fun p => !p.2.isExpired1 t)) by
      show Except.ok (mapFromList _) = _
      rw [Option.getD_some, mapFromList_of_nodup hdnd]]
  have hrestored : alookup (((c.Clear).LoadFile serializers true
      ((c.SaveFile serializers true true t).written.getD []) t).2).items k = some it := by
    rw [hload]
    exact loadInsert_lookup_mem _ _ t k it hdnd hmemdata hlive
  refine ⟨⟨hrestored, ?_⟩, by decide, by decide⟩
  unfold Cache.Get
  rw [hrestored]
  simp [hlive]

theorem c4_save_load_roundtrip_witness :
    (alookup (((nilValCache.Clear).LoadFile serializers true
        ((nilValCache.SaveFile serializers true true 0).written.getD []) 0).2).items "a" =
        some ⟨GoAny.nil, 0⟩ ∧
      (((nilValCache.Clear).LoadFile serializers true
        ((nilValCache.SaveFile serializers true true 0).written.getD []) 0).2.Get "a" 0).1 =
        (GoAny.nil, true)) ∧
    c4Scenario "json" = ((GoAny.intV 1, true), (GoAny.intV 2, true)) ∧
    c4Scenario "gob" = ((GoAny.intV 1, true), (GoAny.intV 2, true)) :=
  c4_save_load_roundtrip nilValCache 0 "a" ⟨GoAny.nil, 0⟩ (by decide) (Or.inl rfl) rfl rfl

/-- The observer calls made by removeElement concern only the removed
key. -/
theorem removeElement_events_fst (c : Cache) (key : String) :
    ∀ p ∈ (c.removeElement key).2.2, p.1 = key := by
  intro p hp
  unfold Cache.removeElement at hp
  by_cases hk : key ∈ c.lruMap <;>
    rcases ho : alookup c.items key with _ | it <;>
      by_cases hoe : c.opt.onEvicted <;>
        simp only [hk, ho, hoe, if_true, if_false, List.mem_singleton,
          List.not_mem_nil] at hp <;>
      cases hp <;> simp_all

/-- The observer calls made by evict concern only the back-of-recency
key. -/
theorem evict_events_fst (c : Cache) :
    ∀ p ∈ c.evict.2, c.lruList.getLast? = some p.1 := by
  intro p hp
  unfold Cache.evict at hp
  rcases hl : c.lruList.getLast? with _ | key
  · simp only [hl] at hp
    cases hp
  · simp only [hl] at hp
    rw [removeElement_events_fst c key p hp]

/-- Two live entries, observer installed, at capacity 2; recency front is
"b". -/
def twoCache : Cache :=
  { opt := { capacity := 2, serializerName := "json", onEvicted := true },
    items := [("a", ⟨GoAny.intV 1, 0⟩), ("b", ⟨GoAny.intV 2, 0⟩)],
    lruList := ["b", "a"], lruMap := ["b", "a"] }

/-- C7: Set on an existing key fires no observer call (hence no
eviction), replaces the key's value and expiry, moves it to the recency
front, and a following capacity-triggered eviction (a Set of a fresh
key) never evicts the just-refreshed key while another key is
resident. -/
theorem c7_reset_existing_never_evicted (c : Cache) (key : String) (v : GoAny)
    (ttl now : Int) (hwf : WF c) (hmem : key ∈ c.lruMap)
    (other : String) (hol : other ∈ c.lruList) (hne : other ≠ key) :
    (c.Set key v ttl now).2 = [] ∧
    alookup (c.Set key v ttl now).1.items key = some ⟨v, expOf ttl now⟩ ∧
    (c.Set key v ttl now).1.lruList = key :: c.lruList.erase key ∧
    (∀ k' v' ttl' now', k' ∉ (c.Set key v ttl now).1.lruMap →
      key ∉ ((c.Set key v ttl now).1.Set k' v' ttl' now').2.map Prod.fst) := by
  have h3 : c.lruList.Nodup := hwf.2.2.1
  have hred : c.Set key v ttl now =
      ({ c with lruList := key :: c.lruList.erase key,
                items := aset c.items key ⟨v, expOf ttl now⟩ }, []) := by
    unfold Cache.Set Cache.setWithExp
    simp [hmem]
  refine ⟨by rw [hred], ?_, by rw [hred], ?_⟩
  · rw [hred]
    exact alookup_aset_self _ _ _
  · intro k' v' ttl' now' hk' hkey
    rw [hred] at hk' hkey
    set c1 : Cache := { c with lruList := key :: c.lruList.erase key,
                               items := aset c.items key ⟨v, expOf ttl now⟩ } with hc1
    have hev : (c1.Set k' v' ttl' now').2 =
        (if (c1.lruList.length : Int) ≥ c1.opt.capacity then c1.evict else (c1, [])).2 := by
      unfold Cache.Set Cache.setWithExp
      simp [hk']
    rw [hev] at hkey
    by_cases hcap : (c1.lruList.length : Int) ≥ c1.opt.capacity
    · rw [if_pos hcap] at hkey
      obtain ⟨p, hp, hpk⟩ := List.mem_map.mp hkey
      have hlast : c1.lruList.getLast? = some p.1 := evict_events_fst c1 p hp
      rw [hpk] at hlast
      have hones : other ∈ c.lruList.erase key := (List.mem_erase_of_ne hne).mpr hol
      have hnnil : c.lruList.erase key ≠ [] := by
        intro hcnil
        rw [hcnil] at hones
        cases hones
      obtain ⟨b, t, hbt⟩ := List.exists_cons_of_ne_nil hnnil
      have hstep : c1.lruList.getLast? = (c.lruList.erase key).getLast? := by
        show (key :: c.lruList.erase key).getLast? = (c.lruList.erase key).getLast?
        rw [hbt, List.getLast?_cons_cons]
      rw [hstep] at hlast
      exact h3.not_mem_erase (List.mem_of_getLast?_eq_some hlast)
    · rw [if_neg hcap] at hkey
      simp at hkey

theorem c7_reset_existing_never_evicted_witness :
    (twoCache.Set "b" (GoAny.intV 9) 5 0).2 = [] ∧
    alookup (twoCache.Set "b" (GoAny.intV 9) 5 0).1.items "b" = some ⟨GoAny.intV 9, expOf 5 0⟩ ∧
    (twoCache.Set "b" (GoAny.intV 9) 5 0).1.lruList = "b" :: twoCache.lruList.erase "b" ∧
    (∀ k' v' ttl' now', k' ∉ (twoCache.Set "b" (GoAny.intV 9) 5 0).1.lruMap →
      "b" ∉ ((twoCache.Set "b" (GoAny.intV 9) 5 0).1.Set k' v' ttl' now').2.map Prod.fst) :=
  c7_reset_existing_never_evicted twoCache "b" (GoAny.intV 9) 5 0 (by decide) (by decide)
    "a" (by decide) (by decide)

theorem c10_nil_indistinguishable_witness :
    (nilValCache.MGet ["a"] 0).1 = [("a", GoAny.nil)] ∧
    (nilValCache.MGet ["b"] 0).1 = [("b", GoAny.nil)] ∧
    (nilValCache.Val "a" 0).1 = GoAny.nil ∧
    (nilValCache.Val "b" 0).1 = GoAny.nil ∧
    (nilValCache.Get "a" 0).1 = (GoAny.nil, true) ∧
    (nilValCache.Get "b" 0).1 = (GoAny.nil, false) :=
  c10_nil_indistinguishable nilValCache "a" "b" 0 ⟨GoAny.nil, 0⟩ rfl rfl rfl rfl

end LCache
